import Mathlib

/-!
# Verification of the `Darray` dynamic-array container (`src/Darray.hpp`)

`Darray<T>` combines a `std::list<T>` backing store with a heap-allocated
array of `std::list<T>::iterator` ("address table") giving O(1) positional
access.  We embed it shallowly:

* a list node is identified by a stable node id (`Nat`), modelling the fact
  that `std::list` iterators stay valid while their node is alive;
* `data : List (Nat × T)` is the store in traversal order, each element
  paired with its node id;
* `addresses : List Nat` is the address table (an iterator is its node id;
  the slots past `index` hold junk, modelled by `0`);
* `index` is the logical size, `maxSize` the capacity (table length);
* `nextId` is a fresh-id supply standing for allocation of new list nodes.

Operations that can throw (`operator[]`, `addAt`, `removeAt`) return
`Option`, where `none` is the exception: the C++ code performs the bounds
check before any mutation, so on `none` the container is unchanged.
`add`'s address-table write `addresses[index] = ...` is modelled by
`writeAddr`, which yields `none` when the write would be out of bounds
(that situation is reachable: a capacity-0 table is doubled to capacity 0).
-/

structure Darray (T : Type) where
  index : Nat
  maxSize : Nat
  data : List (Nat × T)
  addresses : List Nat
  nextId : Nat

namespace Darray

variable {T : Type}

/-- The store's traversal order, values only. -/
def values (d : Darray T) : List T := d.data.map Prod.snd

/-- The node ids of the store in traversal order. -/
def nodeIds (d : Darray T) : List Nat := d.data.map Prod.fst

/-- `size()`: returns the logical size `index`. -/
def size (d : Darray T) : Nat := d.index

/-- `empty()`: `index == 0`. -/
def empty (d : Darray T) : Bool := d.index == 0

/-- Dereference an iterator (node id) in a store: `*it`.  `none` models a
dangling iterator (undefined behavior in the C++). -/
def derefIter (data : List (Nat × T)) (it : Nat) : Option T :=
  (data.find? (fun p => p.1 == it)).map Prod.snd

/-- `data.erase(it)`: remove the node the iterator designates. -/
def eraseIter (data : List (Nat × T)) (it : Nat) : List (Nat × T) :=
  data.eraseP (fun p => p.1 == it)

/-- Write slot `i` of the address table; `none` models the out-of-bounds
write `addresses[i] = v` with `i ≥` table length (undefined behavior). -/
def writeAddr (xs : List Nat) (i v : Nat) : Option (List Nat) :=
  if i < xs.length then some (xs.set i v) else none

/-- `resizeAddressTable(newSize)`: allocate a table of `newSize` slots, copy
the first `min(newSize, index)` old entries, set `maxSize = newSize`.
Uncopied slots are default-constructed (junk, modelled `0`). -/
def resizeAddressTable (d : Darray T) (newSize : Nat) : Darray T :=
  { d with
    addresses := (List.range newSize).map
      (fun i => if i < min newSize d.index then d.addresses.getD i 0 else 0),
    maxSize := newSize }

/-- `rebuildAllAddresses()`: walk `data` in order, store each node's
iterator at its traversal position. -/
def rebuildAllAddresses (d : Darray T) : Darray T :=
  { d with
    addresses := (List.range d.addresses.length).map
      (fun i => if i < d.data.length then d.nodeIds.getD i 0
                else d.addresses.getD i 0) }

/-- Default constructor `Darray(defaultCapacity = 25)`. -/
def mkEmpty (defaultCapacity : Nat := 25) : Darray T :=
  { index := 0, maxSize := defaultCapacity, data := [],
    addresses := List.replicate defaultCapacity 0, nextId := 0 }

/-- The push step shared by `add` and `addAll`: `data.push_back(val);
addresses[index] = std::prev(data.end()); ++index;` given the table
`addrs` that already holds the recording write. -/
def pushBack (d1 : Darray T) (val : T) (addrs : List Nat) : Darray T :=
  { d1 with data := d1.data ++ [(d1.nextId, val)], addresses := addrs,
            index := d1.index + 1, nextId := d1.nextId + 1 }

/-- `add(val)`: if full, double the table (`maxSize * 2`, no floor); push
the value at the back of the store and record its iterator at slot
`index`.  `none` = the recording write is out of bounds (only possible
when the doubled capacity is still `0`). -/
def add (d : Darray T) (val : T) : Option (Darray T) :=
  let d1 := if d.maxSize ≤ d.index then d.resizeAddressTable (d.maxSize * 2) else d
  match writeAddr d1.addresses d1.index d1.nextId with
  | some addrs => some (pushBack d1 val addrs)
  | none => none

/-- The address-shift loop of `addAt`: `for (i = hi; i > pos; --i)
addresses[i] = addresses[i-1]` (each slot written reads a not-yet-written
slot, so the loop equals this tabulation). -/
def shiftRight (xs : List Nat) (pos hi : Nat) : List Nat :=
  (List.range xs.length).map
    (fun j => if pos < j ∧ j ≤ hi then xs.getD (j - 1) 0 else xs.getD j 0)

/-- The structural edit of `addAt` once bounds and capacity are settled:
`advance(it, pos); insert(it, val)` on the store, shift the table right to
open slot `pos`, record the new node's iterator there, `++index`. -/
def insertRecord (d1 : Darray T) (pos : Nat) (val : T) : Darray T :=
  { d1 with
    data := d1.data.take pos ++ (d1.nextId, val) :: d1.data.drop pos,
    addresses := (shiftRight d1.addresses pos d1.index).set pos d1.nextId,
    index := d1.index + 1, nextId := d1.nextId + 1 }

/-- `addAt(pos, val)`: throws (`none`) iff `pos > index`; grows the table
by `+25` when full; then performs the insert edit. -/
def addAt (d : Darray T) (pos : Nat) (val : T) : Option (Darray T) :=
  if d.index < pos then none
  else
    let d1 := if d.maxSize < d.index + 1 then d.resizeAddressTable (d.maxSize + 25) else d
    some (insertRecord d1 pos val)

/-- `addAll(vals)`: grow the table once to `index + vals.size()` if needed,
then push each value recording its iterator. -/
def addAll (d : Darray T) (vals : List T) : Darray T :=
  let d1 := if d.maxSize < d.index + vals.length
            then d.resizeAddressTable (d.index + vals.length) else d
  vals.foldl
    (fun acc v => pushBack acc v (acc.addresses.set acc.index acc.nextId))
    d1

/-- Initializer-list constructor `Darray(vals)`: capacity `vals.size()`,
then `addAll(vals)`. -/
def ofList (vals : List T) : Darray T :=
  (mkEmpty vals.length : Darray T).addAll vals

/-- `operator[](pos)` read: throws (`none`) iff `pos >= index`; otherwise
dereferences the stored iterator `addresses[pos]`. -/
def get (d : Darray T) (pos : Nat) : Option T :=
  if d.index ≤ pos then none
  else derefIter d.data (d.addresses.getD pos 0)

/-- Write through `operator[](pos)` (`d[pos] = val`): same bounds check,
then the node designated by `addresses[pos]` gets the new value. -/
def set (d : Darray T) (pos : Nat) (val : T) : Option (Darray T) :=
  if d.index ≤ pos then none
  else some { d with
    data := d.data.map
      (fun p => if p.1 == d.addresses.getD pos 0 then (p.1, val) else p) }

/-- The address-shift loop of `remove`/`removeAt`: `for (j = pos;
j < hi - 1; ++j) addresses[j] = addresses[j+1]` (reads are of
not-yet-written slots, so the loop equals this tabulation). -/
def shiftLeft (xs : List Nat) (pos hi : Nat) : List Nat :=
  (List.range xs.length).map
    (fun j => if pos ≤ j ∧ j + 1 < hi then xs.getD (j + 1) 0 else xs.getD j 0)

/-- The removal step shared by `remove` and `removeAt`: erase the node
`addresses[pos]` from the store, shift the table left from `pos`,
`--index`. -/
def eraseAtPos (d : Darray T) (pos : Nat) : Darray T :=
  { d with data := eraseIter d.data (d.addresses.getD pos 0),
           addresses := shiftLeft d.addresses pos d.index,
           index := d.index - 1 }

/-- The scan loop of `remove(val, removeAllOccurrences)` starting at
position `i`.  On a match: erase the node `addresses[i]`, shift the table
left, decrement `index`, and stay at position `i` (`--i; ++i`); return at
once unless the flag is set.  Otherwise advance.  `fuel` bounds the
iteration count; `fuel = index - i` steps always suffice, and the public
wrapper supplies `fuel = index`. -/
def removeLoop [DecidableEq T] (val : T) (all : Bool) :
    Nat → Nat → Darray T → Darray T
  | 0, _, d => d
  | fuel + 1, i, d =>
    if d.index ≤ i then d
    else
      match derefIter d.data (d.addresses.getD i 0) with
      | some x =>
        if x = val then
          if all then removeLoop val all fuel i (d.eraseAtPos i) else d.eraseAtPos i
        else removeLoop val all fuel (i + 1) d
      | none => removeLoop val all fuel (i + 1) d

/-- `remove(val, removeAllOccurrences = false)`: early return on an empty
container, else the scan loop from position 0. -/
def remove [DecidableEq T] (d : Darray T) (val : T)
    (all : Bool := false) : Darray T :=
  if d.data.isEmpty || d.index == 0 then d
  else removeLoop val all d.index 0 d

/-- `removeAt(pos)`: throws (`none`) iff `pos >= index`; erases the node
`addresses[pos]`, shifts the table left, decrements `index`. -/
def removeAt (d : Darray T) (pos : Nat) : Option (Darray T) :=
  if d.index ≤ pos then none
  else some (d.eraseAtPos pos)

/-- `clear()`: `data.clear(); index = 0;` — the address table and
`maxSize` are untouched. -/
def clear (d : Darray T) : Darray T :=
  { d with data := [], index := 0 }

/-- One `data.erase(addresses[--index])` step of `shrinkToSize`'s loop:
drop the last element; the table itself is not touched. -/
def dropBack (d : Darray T) : Darray T :=
  { d with data := eraseIter d.data (d.addresses.getD (d.index - 1) 0),
           index := d.index - 1 }

/-- The loop of `shrinkToSize`: `while (index > newSize)
data.erase(addresses[--index]);`.  `fuel = index` steps always suffice. -/
def shrinkLoop : Nat → Nat → Darray T → Darray T
  | 0, _, d => d
  | fuel + 1, newSize, d =>
    if d.index ≤ newSize then d
    else shrinkLoop fuel newSize d.dropBack

/-- `shrinkToSize(newSize)`: no-op when `newSize >= index`; else pop from
the back until `index == newSize`, then resize the table to `newSize`. -/
def shrinkToSize (d : Darray T) (newSize : Nat) : Darray T :=
  if d.index ≤ newSize then d
  else (shrinkLoop d.index newSize d).resizeAddressTable newSize

/-- `sort(comparatorFunction)` (and `sort()`, whose comparator is the
element type's `operator<`): `data.sort(comp)` — a stable sort placing `a`
before `b` when `¬ comp b a` — followed by `rebuildAllAddresses()`.
`std::list::sort` is a stable merge sort; any stable sort sorted w.r.t.
the comparator computes the same list, here `mergeSort`. -/
def sort (d : Darray T) (comp : T → T → Bool) : Darray T :=
  rebuildAllAddresses
    { d with data := d.data.mergeSort (fun p q => !(comp q.2 p.2)) }

/-- The state built by copying: `index`/`maxSize` taken over, the list
copied into fresh nodes (fresh ids `0..n-1`), and a freshly allocated
table of `other.maxSize` default-initialized slots. -/
def copyRecord (other : Darray T) : Darray T :=
  { index := other.index, maxSize := other.maxSize,
    data := other.values.enum,
    addresses := List.replicate other.maxSize 0,
    nextId := other.values.length }

/-- Copy constructor: copies the list (fresh nodes), allocates a fresh
table of `other.maxSize` slots, rebuilds it. -/
def copyCtor (other : Darray T) : Darray T :=
  rebuildAllAddresses (copyRecord other)

/-- Copy assignment `operator=(const Darray&)` (non-self case): assigns
`data`, `index`, `maxSize`, deletes the old table, allocates a new one and
rebuilds it.  The target's prior state does not survive into the result. -/
def copyAssign (_t other : Darray T) : Darray T :=
  copyCtor other

/-- The observable state of the copy-assignment target when the allocation
`new iterator[maxSize]` throws: `data = other.data`, `index = other.index`
and `maxSize = other.maxSize` were already assigned and `delete[]
addresses` already executed (empty table models the released one); the
exception propagates with the target in this state. -/
def copyAssignAllocFail (_t other : Darray T) : Darray T :=
  { copyRecord other with addresses := [] }

/-- Move constructor: steals `data` (list nodes keep their identity, so
iterators stay consistent), the address table, `index` and `maxSize`;
the source is left logically empty with a null table.  Returns
(destination, source-after-move). -/
def moveCtor (other : Darray T) : Darray T × Darray T :=
  ({ index := other.index, maxSize := other.maxSize, data := other.data,
     addresses := other.addresses, nextId := other.nextId },
   { index := 0, maxSize := 0, data := [], addresses := [],
     nextId := other.nextId })

/-- Move assignment `operator=(Darray&&)` (non-self case): the target's
old table is deleted and replaced by the source's; the source is emptied.
Returns (target-after, source-after). -/
def moveAssign (_t other : Darray T) : Darray T × Darray T :=
  moveCtor other

/-- The container invariant: the table is `maxSize` long, `index ≤
maxSize`, the store holds `index` elements, slot `i < index` holds the
iterator of the `i`-th store node, node ids are pairwise distinct, and
every live id is below the fresh-id supply. -/
def Inv (d : Darray T) : Prop :=
  d.addresses.length = d.maxSize ∧
  d.index ≤ d.maxSize ∧
  d.data.length = d.index ∧
  (∀ i, i < d.index → d.addresses.getD i 0 = d.nodeIds.getD i 0) ∧
  d.nodeIds.Nodup ∧
  (∀ n ∈ d.nodeIds, n < d.nextId)

instance (d : Darray T) : Decidable d.Inv := by
  unfold Inv; infer_instance

/-- The effect of `remove`'s scan on the value sequence (proved below):
with `all = false` only the first element equal to `val` is dropped, with
`all = true` every one is. -/
def removeVals [DecidableEq T] (val : T) (all : Bool) : List T → List T
  | [] => []
  | x :: xs =>
    if x = val then (if all then removeVals val all xs else xs)
    else x :: removeVals val all xs

/-- One documented mutation of the container (the operations named by the
spec's index/store-consistency property). -/
inductive Mut (T : Type) where
  | add (v : T)
  | addAt (pos : Nat) (v : T)
  | removeVal (v : T) (all : Bool)
  | removeAt (pos : Nat)
  | sortBy (comp : T → T → Bool)
  | copyFrom (src : Darray T)
  | moveFrom (src : Darray T)
  | clear
  | shrink (n : Nat)

/-- Run one mutation.  A bounds-check exception (`addAt`, `removeAt`) is
raised before any state change, so the caller observes the unchanged
container (`getD d`).  Only `add`'s out-of-bounds table write — undefined
behavior in the C++ — aborts the run (`none`). -/
def applyMut [DecidableEq T] (d : Darray T) : Mut T → Option (Darray T)
  | .add v => d.add v
  | .addAt p v => some ((d.addAt p v).getD d)
  | .removeVal v all => some (d.remove v all)
  | .removeAt p => some ((d.removeAt p).getD d)
  | .sortBy comp => some (d.sort comp)
  | .copyFrom src => some (d.copyAssign src)
  | .moveFrom src => some (d.moveAssign src).1
  | .clear => some d.clear
  | .shrink n => some (d.shrinkToSize n)

/-- Run a sequence of mutations. -/
def applyMuts [DecidableEq T] (d : Darray T) : List (Mut T) → Option (Darray T)
  | [] => some d
  | m :: ms =>
    match applyMut d m with
    | some d1 => applyMuts d1 ms
    | none => none

/-- A mutation's own precondition: copying or moving from a container
requires that source container to be well-formed. -/
def MutOK [DecidableEq T] : Mut T → Prop
  | .copyFrom src => src.Inv
  | .moveFrom src => src.Inv
  | _ => True

end Darray

-- sanity checks on concrete values (spec scenarios)
example : (Darray.ofList ["a", "b", "c", "b"]).values = ["a", "b", "c", "b"] := by decide
example : (Darray.ofList ["a", "b", "c", "b"]).Inv := by decide
example : ((Darray.ofList ["a", "b", "c", "b"]).remove "b" false).values = ["a", "c", "b"] := by decide
example : ((Darray.ofList ["a", "b", "c", "b"]).remove "b" true).values = ["a", "c"] := by decide
example : (Darray.mkEmpty 25 : Darray Nat).Inv := by decide
example : (Darray.add ((Darray.moveCtor (Darray.ofList [(5 : Nat)])).2) 7).isNone = true := by
  decide

namespace Darray

variable {T : Type}

/-! ### Helpers about the tabulated address tables -/

theorem length_tab (n : Nat) (f : Nat → Nat) : ((List.range n).map f).length = n := by
  simp

theorem getD_tab {n i : Nat} (f : Nat → Nat) (h : i < n) :
    ((List.range n).map f).getD i 0 = f i := by
  simp [List.getD_eq_getElem?_getD, List.getElem?_range h]

theorem getD_mem_of_lt {xs : List Nat} {i : Nat} (h : i < xs.length) :
    xs.getD i 0 ∈ xs := by
  rw [List.getD_eq_getElem?_getD]
  rcases hx : xs[i]? with _ | v
  · rw [List.getElem?_eq_none_iff] at hx
    omega
  · simpa using List.getElem?_mem hx

theorem getD_set_self {xs : List Nat} {i v : Nat} (h : i < xs.length) :
    (xs.set i v).getD i 0 = v := by
  simp [List.getD_eq_getElem?_getD, List.getElem?_set_self h]

theorem getD_set_ne {xs : List Nat} {i j v : Nat} (h : i ≠ j) :
    (xs.set i v).getD j 0 = xs.getD j 0 := by
  simp [List.getD_eq_getElem?_getD, List.getElem?_set_ne h]

/-! ### Dereferencing and erasing a node through its id -/

theorem find_nodeId :
    ∀ (xs : List (Nat × T)) (i : Nat), i < xs.length →
      (xs.map Prod.fst).Nodup →
      xs.find? (fun p => p.1 == (xs.map Prod.fst).getD i 0) = xs[i]?
  | x :: tl, 0, _, _ => by simp
  | x :: tl, i + 1, h, hnd => by
    have hlen : i < tl.length := by
      simp only [List.length_cons] at h
      omega
    rw [List.map_cons] at hnd
    obtain ⟨hx, hnd'⟩ := List.nodup_cons.mp hnd
    have hmem : (tl.map Prod.fst).getD i 0 ∈ tl.map Prod.fst :=
      getD_mem_of_lt (by simpa using hlen)
    have hne : (x.1 == (tl.map Prod.fst).getD i 0) = false :=
      beq_eq_false_iff_ne.mpr (fun heq => hx (heq ▸ hmem))
    have step : List.find? (fun p : Nat × T => p.1 == (tl.map Prod.fst).getD i 0) (x :: tl)
        = List.find? (fun p : Nat × T => p.1 == (tl.map Prod.fst).getD i 0) tl := by
      rw [List.find?_cons, hne]
    simp only [List.map_cons, List.getD_cons_succ, List.getElem?_cons_succ]
    rw [step]
    exact find_nodeId tl i hlen hnd'

theorem eraseP_nodeId :
    ∀ (xs : List (Nat × T)) (i : Nat), i < xs.length →
      (xs.map Prod.fst).Nodup →
      xs.eraseP (fun p => p.1 == (xs.map Prod.fst).getD i 0)
        = xs.take i ++ xs.drop (i + 1)
  | x :: tl, 0, _, _ => by simp
  | x :: tl, i + 1, h, hnd => by
    have hlen : i < tl.length := by
      simp only [List.length_cons] at h
      omega
    rw [List.map_cons] at hnd
    obtain ⟨hx, hnd'⟩ := List.nodup_cons.mp hnd
    have hmem : (tl.map Prod.fst).getD i 0 ∈ tl.map Prod.fst :=
      getD_mem_of_lt (by simpa using hlen)
    have hne : (x.1 == (tl.map Prod.fst).getD i 0) = false :=
      beq_eq_false_iff_ne.mpr (fun heq => hx (heq ▸ hmem))
    have step : List.eraseP (fun p : Nat × T => p.1 == (tl.map Prod.fst).getD i 0) (x :: tl)
        = x :: List.eraseP (fun p : Nat × T => p.1 == (tl.map Prod.fst).getD i 0) tl := by
      rw [List.eraseP_cons, hne]
      rfl
    simp only [List.map_cons, List.getD_cons_succ, List.take_succ_cons, List.drop_succ_cons]
    rw [step, eraseP_nodeId tl i hlen hnd']
    simp

/-- Under the invariant, `get` is positional access into the traversal
order: `get(i)` is the `(i+1)`-th store value for `i < size`, and `none`
past the end. -/
theorem get_eq_values {d : Darray T} (h : d.Inv) (i : Nat) :
    d.get i = d.values[i]? := by
  obtain ⟨hlen, hcap, hdata, haddr, hnd, hbound⟩ := h
  by_cases hi : i < d.index
  · have hi' : i < d.data.length := by omega
    unfold get derefIter
    rw [if_neg (by omega), haddr i hi]
    unfold nodeIds at *
    rw [find_nodeId d.data i hi' hnd]
    simp [values, List.getElem?_eq_getElem hi']
  · have h1 : d.values.length ≤ i := by
      simp only [values, List.length_map]
      omega
    unfold get
    rw [if_pos (by omega), List.getElem?_eq_none h1]

end Darray


namespace Darray

variable {T : Type}

@[simp] theorem nodeIds_length (d : Darray T) : d.nodeIds.length = d.data.length := by
  simp [nodeIds]

@[simp] theorem values_length (d : Darray T) : d.values.length = d.data.length := by
  simp [values]

/-! ### `resizeAddressTable` and `rebuildAllAddresses` preserve the invariant -/

theorem resize_inv {d : Darray T} {n : Nat} (h : d.Inv) (hn : d.index ≤ n) :
    (d.resizeAddressTable n).Inv := by
  obtain ⟨hlen, hcap, hdata, haddr, hnd, hbound⟩ := h
  refine ⟨length_tab n _, hn, hdata, ?_, hnd, hbound⟩
  intro i hi
  have hi2 : i < d.index := hi
  show ((List.range n).map _).getD i 0 = d.nodeIds.getD i 0
  rw [getD_tab _ (by omega)]
  rw [if_pos (by omega : i < min n d.index)]
  exact haddr i hi2

/-- The invariant minus the address-table contents: what must hold before a
full rebuild for the rebuild to re-establish `Inv`. -/
def PreInv (d : Darray T) : Prop :=
  d.addresses.length = d.maxSize ∧
  d.index ≤ d.maxSize ∧
  d.data.length = d.index ∧
  d.nodeIds.Nodup ∧
  (∀ n ∈ d.nodeIds, n < d.nextId)

theorem rebuild_inv {d : Darray T} (h : d.PreInv) : (d.rebuildAllAddresses).Inv := by
  obtain ⟨hlen, hcap, hdata, hnd, hbound⟩ := h
  refine ⟨?_, hcap, hdata, ?_, hnd, hbound⟩
  · show ((List.range d.addresses.length).map _).length = d.maxSize
    rw [length_tab, hlen]
  · intro i hi
    have hi2 : i < d.index := hi
    show ((List.range d.addresses.length).map _).getD i 0 = d.nodeIds.getD i 0
    rw [getD_tab _ (by omega)]
    rw [if_pos (by omega : i < d.data.length)]

/-! ### `add` -/

theorem add_eq_of_full {d : Darray T} (hfull : d.maxSize ≤ d.index) (val : T) :
    d.add val
      = match writeAddr (d.resizeAddressTable (d.maxSize * 2)).addresses
          (d.resizeAddressTable (d.maxSize * 2)).index
          (d.resizeAddressTable (d.maxSize * 2)).nextId with
        | some addrs => some (pushBack (d.resizeAddressTable (d.maxSize * 2)) val addrs)
        | none => none := by
  unfold add
  rw [if_pos hfull]

theorem add_eq_of_notfull {d : Darray T} (hfull : ¬ d.maxSize ≤ d.index) (val : T) :
    d.add val
      = match writeAddr d.addresses d.index d.nextId with
        | some addrs => some (pushBack d val addrs)
        | none => none := by
  unfold add
  rw [if_neg hfull]

theorem push_spec {d1 : Darray T} (h : d1.Inv) (hlt : d1.index < d1.maxSize) (val : T) :
    (pushBack d1 val (d1.addresses.set d1.index d1.nextId)).Inv ∧
    (pushBack d1 val (d1.addresses.set d1.index d1.nextId)).values = d1.values ++ [val] := by
  obtain ⟨hlen, hcap, hdata, haddr, hnd, hbound⟩ := h
  have hids : (pushBack d1 val (d1.addresses.set d1.index d1.nextId)).nodeIds
      = d1.nodeIds ++ [d1.nextId] := by
    simp [pushBack, nodeIds]
  have hnotmem : d1.nextId ∉ d1.nodeIds := fun hmem => by
    have := hbound _ hmem
    omega
  refine ⟨⟨?_, ?_, ?_, ?_, ?_, ?_⟩, ?_⟩
  · show (d1.addresses.set d1.index d1.nextId).length = d1.maxSize
    simp [hlen]
  · show d1.index + 1 ≤ d1.maxSize
    omega
  · show (d1.data ++ [(d1.nextId, val)]).length = d1.index + 1
    simp [hdata]
  · intro i hi
    have hi2 : i < d1.index + 1 := hi
    rw [hids]
    show (d1.addresses.set d1.index d1.nextId).getD i 0 = _
    rcases Nat.lt_or_ge i d1.index with hlt2 | hge
    · rw [getD_set_ne (by omega)]
      rw [haddr i hlt2]
      rw [List.getD_eq_getElem?_getD, List.getD_eq_getElem?_getD,
        List.getElem?_append_left (by simp only [nodeIds_length]; omega)]
    · have hieq : i = d1.index := by omega
      have hlen2 : d1.nodeIds.length = d1.index := by simp only [nodeIds_length]; omega
      rw [hieq, getD_set_self (by omega)]
      rw [List.getD_eq_getElem?_getD, List.getElem?_append_right (by omega), hlen2]
      simp
  · rw [hids, ← List.concat_eq_append]
    exact List.Nodup.concat hnotmem hnd
  · rw [hids]
    intro n hn
    show n < d1.nextId + 1
    rcases List.mem_append.mp hn with hmem | hmem
    · have := hbound _ hmem
      omega
    · simp only [List.mem_singleton] at hmem
      omega
  · simp [pushBack, values]

theorem add_spec {d : Darray T} (h : d.Inv) (val : T) :
    (d.maxSize = 0 → d.add val = none) ∧
    (0 < d.maxSize →
      ∃ d2, d.add val = some d2 ∧ d2.Inv ∧ d2.values = d.values ++ [val] ∧
        d2.index = d.index + 1 ∧
        d2.maxSize = (if d.maxSize ≤ d.index then d.maxSize * 2 else d.maxSize) ∧
        d2.nextId = d.nextId + 1) := by
  have hcap := h.2.1
  constructor
  · intro h0
    rw [add_eq_of_full (by omega) val]
    unfold writeAddr
    rw [if_neg]
    show ¬ (d.resizeAddressTable (d.maxSize * 2)).index
      < ((List.range (d.maxSize * 2)).map _).length
    rw [length_tab]
    show ¬ d.index < d.maxSize * 2
    omega
  · intro hpos
    by_cases hfull : d.maxSize ≤ d.index
    · have hinv1 : (d.resizeAddressTable (d.maxSize * 2)).Inv := resize_inv h (by omega)
      have hlt : (d.resizeAddressTable (d.maxSize * 2)).index
          < (d.resizeAddressTable (d.maxSize * 2)).maxSize := by
        show d.index < d.maxSize * 2
        omega
      obtain ⟨hinv2, hvals2⟩ := push_spec hinv1 hlt val
      rw [add_eq_of_full hfull val]
      unfold writeAddr
      rw [if_pos (by rw [hinv1.1]; exact hlt)]
      refine ⟨_, rfl, hinv2, ?_, rfl, by rw [if_pos hfull]; rfl, rfl⟩
      rw [hvals2]
      show d.values ++ [val] = d.values ++ [val]
      rfl
    · have hlt : d.index < d.maxSize := by omega
      obtain ⟨hinv2, hvals2⟩ := push_spec h hlt val
      rw [add_eq_of_notfull hfull val]
      unfold writeAddr
      rw [if_pos (by rw [h.1]; exact hlt)]
      exact ⟨_, rfl, hinv2, hvals2, rfl, by rw [if_neg hfull]; rfl, rfl⟩

end Darray

namespace Darray

variable {T : Type}

/-! ### Index arithmetic for insertion into / removal from a list -/

theorem getD_insert_list {xs : List Nat} {pos : Nat} (hpos : pos ≤ xs.length)
    (a : Nat) (j : Nat) :
    (xs.take pos ++ a :: xs.drop pos).getD j 0
      = if j < pos then xs.getD j 0
        else if j = pos then a else xs.getD (j - 1) 0 := by
  have htl : (xs.take pos).length = pos := by
    simp only [List.length_take]
    omega
  by_cases h1 : j < pos
  · rw [if_pos h1, List.getD_eq_getElem?_getD, List.getD_eq_getElem?_getD,
      List.getElem?_append_left (by omega), List.getElem?_take_of_lt h1]
  · by_cases h2 : j = pos
    · subst h2
      rw [if_neg h1, if_pos rfl, List.getD_eq_getElem?_getD,
        List.getElem?_append_right (by omega), htl, Nat.sub_self]
      simp
    · have hgt : pos < j := by omega
      rw [if_neg h1, if_neg h2, List.getD_eq_getElem?_getD, List.getD_eq_getElem?_getD,
        List.getElem?_append_right (by omega), htl]
      have hj : j - pos = (j - pos - 1) + 1 := by omega
      rw [hj, List.getElem?_cons_succ, List.getElem?_drop]
      have hj2 : pos + (j - pos - 1) = j - 1 := by omega
      rw [hj2]

theorem getD_remove_list {xs : List Nat} {pos : Nat} (hpos : pos < xs.length) (j : Nat) :
    (xs.take pos ++ xs.drop (pos + 1)).getD j 0
      = if j < pos then xs.getD j 0 else xs.getD (j + 1) 0 := by
  have htl : (xs.take pos).length = pos := by
    simp only [List.length_take]
    omega
  by_cases h1 : j < pos
  · rw [if_pos h1, List.getD_eq_getElem?_getD, List.getD_eq_getElem?_getD,
      List.getElem?_append_left (by omega), List.getElem?_take_of_lt h1]
  · rw [if_neg h1, List.getD_eq_getElem?_getD, List.getD_eq_getElem?_getD,
      List.getElem?_append_right (by omega), htl, List.getElem?_drop]
    have hj : pos + 1 + (j - pos) = j + 1 := by omega
    rw [hj]

theorem insert_sublist_of_list {xs : List Nat} {pos : Nat} :
    List.Sublist (xs.take pos ++ xs.drop (pos + 1)) xs := by
  have h1 : List.Sublist (xs.drop (pos + 1)) (xs.drop pos) :=
    List.drop_sublist_drop_left xs (by omega)
  have h2 := h1.append_left (xs.take pos)
  rwa [List.take_append_drop] at h2

/-! ### `addAt` -/

theorem addAt_eq_none {d : Darray T} {pos : Nat} (hgt : d.index < pos) (val : T) :
    d.addAt pos val = none := by
  unfold addAt
  rw [if_pos hgt]

theorem addAt_eq_grow {d : Darray T} {pos : Nat} (hle : ¬ d.index < pos)
    (hfull : d.maxSize < d.index + 1) (val : T) :
    d.addAt pos val = some (insertRecord (d.resizeAddressTable (d.maxSize + 25)) pos val) := by
  unfold addAt
  rw [if_neg hle, if_pos hfull]

theorem addAt_eq_nogrow {d : Darray T} {pos : Nat} (hle : ¬ d.index < pos)
    (hfull : ¬ d.maxSize < d.index + 1) (val : T) :
    d.addAt pos val = some (insertRecord d pos val) := by
  unfold addAt
  rw [if_neg hle, if_neg hfull]

theorem insert_spec {d1 : Darray T} (h : d1.Inv) (hcap1 : d1.index + 1 ≤ d1.maxSize)
    {pos : Nat} (hpos : pos ≤ d1.index) (val : T) :
    (insertRecord d1 pos val).Inv ∧
    (insertRecord d1 pos val).values = d1.values.take pos ++ val :: d1.values.drop pos := by
  obtain ⟨hlen, hcap, hdata, haddr, hnd, hbound⟩ := h
  have hidslen : d1.nodeIds.length = d1.index := by
    simp only [nodeIds_length]
    omega
  have hids : (insertRecord d1 pos val).nodeIds
      = d1.nodeIds.take pos ++ d1.nextId :: d1.nodeIds.drop pos := by
    simp [insertRecord, nodeIds, List.map_take, List.map_drop]
  have hnotmem : d1.nextId ∉ d1.nodeIds := fun hmem => by
    have := hbound _ hmem
    omega
  have hshlen : (shiftRight d1.addresses pos d1.index).length = d1.addresses.length :=
    length_tab _ _
  refine ⟨⟨?_, ?_, ?_, ?_, ?_, ?_⟩, ?_⟩
  · show ((shiftRight d1.addresses pos d1.index).set pos d1.nextId).length = d1.maxSize
    rw [List.length_set, hshlen, hlen]
  · show d1.index + 1 ≤ d1.maxSize
    omega
  · show (d1.data.take pos ++ (d1.nextId, val) :: d1.data.drop pos).length = d1.index + 1
    simp only [List.length_append, List.length_cons, List.length_take, List.length_drop]
    omega
  · intro i hi
    have hi2 : i < d1.index + 1 := hi
    rw [hids, getD_insert_list (by omega) d1.nextId i]
    show ((shiftRight d1.addresses pos d1.index).set pos d1.nextId).getD i 0 = _
    by_cases hip : i = pos
    · subst hip
      rw [getD_set_self (by omega), if_neg (by omega), if_pos rfl]
    · rw [getD_set_ne (fun hh => hip hh.symm)]
      show (shiftRight d1.addresses pos d1.index).getD i 0 = _
      unfold shiftRight
      rw [getD_tab _ (by omega)]
      by_cases h1 : i < pos
      · rw [if_neg (by omega), if_pos h1]
        exact haddr i (by omega)
      · have hgt : pos < i := by omega
        rw [if_pos ⟨hgt, by omega⟩, if_neg h1, if_neg hip]
        exact haddr (i - 1) (by omega)
  · rw [hids, List.nodup_middle, List.take_append_drop]
    exact List.nodup_cons.mpr ⟨hnotmem, hnd⟩
  · rw [hids]
    intro n hn
    show n < d1.nextId + 1
    rcases List.mem_append.mp hn with hmem | hmem
    · have := hbound _ (List.take_subset _ _ hmem)
      omega
    · rcases List.mem_cons.mp hmem with hmem | hmem
      · omega
      · have := hbound _ (List.drop_subset _ _ hmem)
        omega
  · simp [insertRecord, values, List.map_take, List.map_drop]

theorem addAt_spec {d : Darray T} (h : d.Inv) (pos : Nat) (val : T) :
    (d.index < pos → d.addAt pos val = none) ∧
    (pos ≤ d.index →
      ∃ d2, d.addAt pos val = some d2 ∧ d2.Inv ∧
        d2.values = d.values.take pos ++ val :: d.values.drop pos ∧
        d2.index = d.index + 1 ∧
        d2.maxSize = (if d.maxSize < d.index + 1 then d.maxSize + 25 else d.maxSize) ∧
        d2.nextId = d.nextId + 1) := by
  have hcap := h.2.1
  refine ⟨fun hgt => addAt_eq_none hgt val, fun hle => ?_⟩
  by_cases hfull : d.maxSize < d.index + 1
  · have hinv1 : (d.resizeAddressTable (d.maxSize + 25)).Inv := resize_inv h (by omega)
    obtain ⟨hinv2, hvals2⟩ := insert_spec hinv1 (by show d.index + 1 ≤ d.maxSize + 25; omega)
      (by show pos ≤ d.index; omega) val
    rw [addAt_eq_grow (by omega) hfull val]
    refine ⟨_, rfl, hinv2, ?_, rfl, by rw [if_pos hfull]; rfl, rfl⟩
    rw [hvals2]
    show d.values.take pos ++ val :: d.values.drop pos = _
    rfl
  · obtain ⟨hinv2, hvals2⟩ := insert_spec h (by omega) hle val
    rw [addAt_eq_nogrow (by omega) hfull val]
    exact ⟨_, rfl, hinv2, hvals2, rfl, by rw [if_neg hfull]; rfl, rfl⟩

/-! ### `eraseAtPos` and `removeAt` -/

theorem eraseAtPos_spec {d : Darray T} (h : d.Inv) {pos : Nat} (hpos : pos < d.index) :
    (d.eraseAtPos pos).Inv ∧
    (d.eraseAtPos pos).values = d.values.take pos ++ d.values.drop (pos + 1) ∧
    (d.eraseAtPos pos).index = d.index - 1 ∧
    (d.eraseAtPos pos).maxSize = d.maxSize ∧
    (d.eraseAtPos pos).nextId = d.nextId := by
  obtain ⟨hlen, hcap, hdata, haddr, hnd, hbound⟩ := h
  have hidslen : d.nodeIds.length = d.index := by
    simp only [nodeIds_length]
    omega
  have hdataeq : (d.eraseAtPos pos).data = d.data.take pos ++ d.data.drop (pos + 1) := by
    show eraseIter d.data (d.addresses.getD pos 0) = _
    rw [haddr pos hpos]
    exact eraseP_nodeId d.data pos (by omega) hnd
  have hids : (d.eraseAtPos pos).nodeIds = d.nodeIds.take pos ++ d.nodeIds.drop (pos + 1) := by
    show (d.eraseAtPos pos).data.map Prod.fst = _
    rw [hdataeq]
    simp [nodeIds, List.map_take, List.map_drop]
  have hsub : List.Sublist (d.eraseAtPos pos).nodeIds d.nodeIds := by
    rw [hids]
    exact insert_sublist_of_list
  refine ⟨⟨?_, ?_, ?_, ?_, ?_, ?_⟩, ?_, rfl, rfl, rfl⟩
  · show (shiftLeft d.addresses pos d.index).length = d.maxSize
    unfold shiftLeft
    rw [length_tab, hlen]
  · show d.index - 1 ≤ d.maxSize
    omega
  · rw [hdataeq]
    show (d.data.take pos ++ d.data.drop (pos + 1)).length = d.index - 1
    simp only [List.length_append, List.length_take, List.length_drop]
    omega
  · intro i hi
    have hi2 : i < d.index - 1 := hi
    rw [hids, getD_remove_list (by omega) i]
    show (shiftLeft d.addresses pos d.index).getD i 0 = _
    unfold shiftLeft
    rw [getD_tab _ (by omega)]
    by_cases h1 : i < pos
    · rw [if_neg (by omega), if_pos h1]
      exact haddr i (by omega)
    · rw [if_pos ⟨by omega, by omega⟩, if_neg h1]
      exact haddr (i + 1) (by omega)
  · exact hnd.sublist hsub
  · intro n hn
    exact hbound _ (hsub.subset hn)
  · show (d.eraseAtPos pos).data.map Prod.snd = _
    rw [hdataeq]
    simp [values, List.map_take, List.map_drop]

theorem removeAt_eq_none {d : Darray T} {pos : Nat} (hge : d.index ≤ pos) :
    d.removeAt pos = none := by
  unfold removeAt
  rw [if_pos hge]

theorem removeAt_eq_some {d : Darray T} {pos : Nat} (hlt : pos < d.index) :
    d.removeAt pos = some (d.eraseAtPos pos) := by
  unfold removeAt
  rw [if_neg (by omega)]

end Darray

namespace Darray

variable {T : Type}

/-! ### The `remove` scan loop -/

theorem deref_spec {d : Darray T} (h : d.Inv) {i : Nat} (hi : i < d.index) :
    derefIter d.data (d.addresses.getD i 0) = d.values[i]? := by
  have hg := get_eq_values h i
  unfold get at hg
  rw [if_neg (by omega)] at hg
  exact hg

theorem removeLoop_step_hit [DecidableEq T] {val : T} {all : Bool} {fuel i : Nat}
    {d : Darray T} (hlt : ¬ d.index ≤ i)
    (hderef : derefIter d.data (d.addresses.getD i 0) = some val) :
    removeLoop val all (fuel + 1) i d
      = if all then removeLoop val all fuel i (d.eraseAtPos i) else d.eraseAtPos i := by
  rw [removeLoop, if_neg hlt, hderef]
  simp

theorem removeLoop_step_miss [DecidableEq T] {val x : T} {all : Bool} {fuel i : Nat}
    {d : Darray T} (hlt : ¬ d.index ≤ i)
    (hderef : derefIter d.data (d.addresses.getD i 0) = some x) (hne : x ≠ val) :
    removeLoop val all (fuel + 1) i d = removeLoop val all fuel (i + 1) d := by
  rw [removeLoop, if_neg hlt, hderef]
  simp [hne]

theorem removeLoop_spec [DecidableEq T] (val : T) (all : Bool) :
    ∀ (fuel i : Nat) (d : Darray T), d.Inv → d.index ≤ i + fuel →
      (removeLoop val all fuel i d).Inv ∧
      (removeLoop val all fuel i d).values
        = d.values.take i ++ removeVals val all (d.values.drop i) ∧
      (removeLoop val all fuel i d).maxSize = d.maxSize ∧
      (removeLoop val all fuel i d).nextId = d.nextId
  | 0, i, d, hinv, hstop => by
    have hvlen : d.values.length = d.index := by
      rw [values_length, hinv.2.2.1]
    refine ⟨hinv, ?_, rfl, rfl⟩
    rw [List.drop_eq_nil_of_le (by omega), List.take_of_length_le (by omega)]
    show d.values = d.values ++ removeVals val all []
    simp [removeVals]
  | fuel + 1, i, d, hinv, hbound => by
    have hvlen : d.values.length = d.index := by
      rw [values_length, hinv.2.2.1]
    by_cases hstop : d.index ≤ i
    · rw [removeLoop, if_pos hstop]
      refine ⟨hinv, ?_, rfl, rfl⟩
      rw [List.drop_eq_nil_of_le (by omega), List.take_of_length_le (by omega)]
      show d.values = d.values ++ removeVals val all []
      simp [removeVals]
    · have hi : i < d.index := by omega
      obtain ⟨vi, hvi⟩ : ∃ v, d.values[i]? = some v :=
        ⟨_, List.getElem?_eq_getElem (show i < d.values.length by omega)⟩
      have hderef : derefIter d.data (d.addresses.getD i 0) = some vi := by
        rw [deref_spec hinv hi, hvi]
      have hdropeq : d.values.drop i = vi :: d.values.drop (i + 1) := by
        rw [List.drop_eq_getElem_cons (show i < d.values.length by omega)]
        have h2 := List.getElem?_eq_getElem (show i < d.values.length by omega)
        rw [hvi] at h2
        rw [← Option.some.inj h2]
      by_cases hveq : vi = val
      · subst hveq
        obtain ⟨hinv1, hvals1, hidx1, hmax1, hnid1⟩ := eraseAtPos_spec hinv hi
        have hAlen : (d.values.take i).length = i := by
          simp only [List.length_take]
          omega
        cases all with
        | false =>
          rw [removeLoop_step_hit hstop hderef, if_neg Bool.false_ne_true]
          refine ⟨hinv1, ?_, hmax1, hnid1⟩
          rw [hvals1, hdropeq]
          show _ = d.values.take i ++ removeVals vi false (vi :: d.values.drop (i + 1))
          simp [removeVals]
        | true =>
          rw [removeLoop_step_hit hstop hderef, if_pos rfl]
          have hbound1 : (d.eraseAtPos i).index ≤ i + fuel := by
            rw [hidx1]
            omega
          obtain ⟨ih1, ih2, ih3, ih4⟩ := removeLoop_spec vi true fuel i (d.eraseAtPos i) hinv1 hbound1
          refine ⟨ih1, ?_, by rw [ih3, hmax1], by rw [ih4, hnid1]⟩
          rw [ih2, hvals1]
          rw [List.take_append_of_le_length (by omega), List.take_of_length_le (by omega)]
          rw [List.drop_append_of_le_length (by omega), List.drop_eq_nil_of_le (by omega)]
          rw [List.nil_append, hdropeq]
          show _ = d.values.take i ++ removeVals vi true (vi :: d.values.drop (i + 1))
          simp [removeVals]
      · rw [removeLoop_step_miss hstop hderef hveq]
        obtain ⟨ih1, ih2, ih3, ih4⟩ :=
          removeLoop_spec val all fuel (i + 1) d hinv (by omega)
        refine ⟨ih1, ?_, ih3, ih4⟩
        rw [ih2, List.take_succ, hvi, hdropeq]
        show _ = d.values.take i ++ removeVals val all (vi :: d.values.drop (i + 1))
        simp [removeVals, hveq]

theorem removeLoop_noop [DecidableEq T] (val : T) (all : Bool) :
    ∀ (fuel i : Nat) (d : Darray T), d.Inv → (∀ x ∈ d.values.drop i, x ≠ val) →
      removeLoop val all fuel i d = d
  | 0, _, _, _, _ => rfl
  | fuel + 1, i, d, hinv, hmiss => by
    by_cases hstop : d.index ≤ i
    · rw [removeLoop, if_pos hstop]
    · have hi : i < d.index := by omega
      have hvlen : d.values.length = d.index := by
        rw [values_length, hinv.2.2.1]
      obtain ⟨vi, hvi⟩ : ∃ v, d.values[i]? = some v :=
        ⟨_, List.getElem?_eq_getElem (show i < d.values.length by omega)⟩
      have hderef : derefIter d.data (d.addresses.getD i 0) = some vi := by
        rw [deref_spec hinv hi, hvi]
      have hdropeq : d.values.drop i = vi :: d.values.drop (i + 1) := by
        rw [List.drop_eq_getElem_cons (show i < d.values.length by omega)]
        have h2 := List.getElem?_eq_getElem (show i < d.values.length by omega)
        rw [hvi] at h2
        rw [← Option.some.inj h2]
      have hne : vi ≠ val := hmiss vi (by rw [hdropeq]; exact List.mem_cons_self vi _)
      rw [removeLoop_step_miss hstop hderef hne]
      refine removeLoop_noop val all fuel (i + 1) d hinv (fun x hx => hmiss x ?_)
      have hsub : List.Sublist (d.values.drop (i + 1)) (d.values.drop i) :=
        List.drop_sublist_drop_left d.values (by omega)
      exact hsub.subset hx

theorem remove_guard {d : Darray T} [DecidableEq T] (val : T) (all : Bool)
    (hguard : (d.data.isEmpty || d.index == 0) = true) :
    d.remove val all = d := by
  unfold remove
  rw [if_pos hguard]

theorem remove_spec [DecidableEq T] {d : Darray T} (h : d.Inv) (val : T) (all : Bool) :
    (d.remove val all).Inv ∧
    (d.remove val all).values = removeVals val all d.values ∧
    (d.remove val all).maxSize = d.maxSize ∧
    (d.remove val all).nextId = d.nextId := by
  by_cases hguard : (d.data.isEmpty || d.index == 0) = true
  · rw [remove_guard val all hguard]
    have hempty : d.values = [] := by
      rcases Bool.or_eq_true_iff.mp hguard with h1 | h1
      · have h2 : d.data = [] := by simpa using h1
        rw [values, h2]
        rfl
      · have h2 : d.index = 0 := by simpa using h1
        have h3 : d.values.length = 0 := by rw [values_length, h.2.2.1, h2]
        exact List.eq_nil_of_length_eq_zero h3
    refine ⟨h, ?_, rfl, rfl⟩
    rw [hempty]
    rfl
  · unfold remove
    rw [if_neg hguard]
    obtain ⟨h1, h2, h3, h4⟩ := removeLoop_spec val all d.index 0 d h (by omega)
    refine ⟨h1, ?_, h3, h4⟩
    rw [h2]
    simp

theorem remove_noop [DecidableEq T] {d : Darray T} (h : d.Inv) (val : T) (all : Bool)
    (hmiss : val ∉ d.values) : d.remove val all = d := by
  by_cases hguard : (d.data.isEmpty || d.index == 0) = true
  · exact remove_guard val all hguard
  · unfold remove
    rw [if_neg hguard]
    refine removeLoop_noop val all d.index 0 d h (fun x hx hxe => hmiss ?_)
    rw [← hxe]
    exact List.mem_of_mem_drop hx

/-! ### value-level characterization of the scan -/

theorem removeVals_false_eq [DecidableEq T] (val : T) :
    ∀ xs : List T, removeVals val false xs = xs.eraseP (fun x => decide (x = val))
  | [] => rfl
  | x :: xs => by
    by_cases hx : x = val
    · simp [removeVals, hx]
    · simp [removeVals, hx, removeVals_false_eq val xs]

theorem removeVals_true_eq [DecidableEq T] (val : T) :
    ∀ xs : List T, removeVals val true xs = xs.filter (fun x => decide (¬ x = val))
  | [] => rfl
  | x :: xs => by
    by_cases hx : x = val
    · simp [removeVals, hx, removeVals_true_eq val xs]
    · simp [removeVals, hx, removeVals_true_eq val xs]

end Darray

namespace Darray

variable {T : Type}

/-! ### `clear` -/

theorem clear_inv {d : Darray T} (h : d.Inv) : (d.clear).Inv := by
  refine ⟨h.1, Nat.zero_le _, rfl, ?_, ?_, ?_⟩
  · intro i hi
    exact absurd (show i < 0 from hi) (by omega)
  · exact List.nodup_nil
  · intro n hn
    exact absurd (show n ∈ ([] : List Nat) from hn) (by simp)

/-! ### `shrinkToSize` -/

theorem getD_take_of_lt {xs : List Nat} {k i : Nat} (h : i < k) :
    (xs.take k).getD i 0 = xs.getD i 0 := by
  rw [List.getD_eq_getElem?_getD, List.getD_eq_getElem?_getD, List.getElem?_take_of_lt h]

theorem dropBack_spec {d : Darray T} (h : d.Inv) (hpos : 0 < d.index) :
    (d.dropBack).Inv ∧
    d.dropBack.values = d.values.take (d.index - 1) ∧
    d.dropBack.index = d.index - 1 ∧
    d.dropBack.maxSize = d.maxSize ∧
    d.dropBack.addresses = d.addresses ∧
    d.dropBack.nextId = d.nextId := by
  obtain ⟨hlen, hcap, hdata, haddr, hnd, hbound⟩ := h
  have hdataeq : d.dropBack.data = d.data.take (d.index - 1) := by
    show eraseIter d.data (d.addresses.getD (d.index - 1) 0) = _
    rw [haddr _ (by omega)]
    show d.data.eraseP _ = _
    rw [show d.nodeIds.getD (d.index - 1) 0 = (d.data.map Prod.fst).getD (d.index - 1) 0 from rfl]
    rw [eraseP_nodeId d.data (d.index - 1) (by omega) hnd]
    rw [show d.index - 1 + 1 = d.index from by omega]
    rw [List.drop_eq_nil_of_le (by omega), List.append_nil]
  have hids : d.dropBack.nodeIds = d.nodeIds.take (d.index - 1) := by
    show d.dropBack.data.map Prod.fst = _
    rw [hdataeq]
    simp [nodeIds, List.map_take]
  refine ⟨⟨hlen, by show d.index - 1 ≤ d.maxSize; omega, ?_, ?_, ?_, ?_⟩, ?_, rfl, rfl, rfl, rfl⟩
  · rw [hdataeq]
    show (d.data.take (d.index - 1)).length = d.index - 1
    simp only [List.length_take]
    omega
  · intro i hi
    have hi2 : i < d.index - 1 := hi
    rw [hids, getD_take_of_lt hi2]
    exact haddr i (by omega)
  · rw [hids]
    exact hnd.sublist (List.take_sublist _ _)
  · rw [hids]
    intro n hn
    exact hbound _ (List.take_subset _ _ hn)
  · show d.dropBack.data.map Prod.snd = _
    rw [hdataeq]
    simp [values, List.map_take]

theorem shrinkLoop_spec :
    ∀ (fuel newSize : Nat) (d : Darray T), d.Inv → d.index ≤ fuel + newSize →
      (shrinkLoop fuel newSize d).Inv ∧
      (shrinkLoop fuel newSize d).values = d.values.take (min d.index newSize) ∧
      (shrinkLoop fuel newSize d).index = min d.index newSize ∧
      (shrinkLoop fuel newSize d).maxSize = d.maxSize ∧
      (shrinkLoop fuel newSize d).addresses = d.addresses ∧
      (shrinkLoop fuel newSize d).nextId = d.nextId
  | 0, newSize, d, hinv, hstop => by
    have hvlen : d.values.length = d.index := by
      rw [values_length, hinv.2.2.1]
    refine ⟨hinv, ?_, by show d.index = min d.index newSize; omega, rfl, rfl, rfl⟩
    show d.values = _
    rw [show min d.index newSize = d.index from by omega,
      List.take_of_length_le (by omega)]
  | fuel + 1, newSize, d, hinv, hbound => by
    have hvlen : d.values.length = d.index := by
      rw [values_length, hinv.2.2.1]
    by_cases hstop : d.index ≤ newSize
    · rw [shrinkLoop, if_pos hstop]
      refine ⟨hinv, ?_, by show d.index = min d.index newSize; omega, rfl, rfl, rfl⟩
      rw [show min d.index newSize = d.index from by omega,
        List.take_of_length_le (by omega)]
    · rw [shrinkLoop, if_neg hstop]
      obtain ⟨hinv1, hvals1, hidx1, hmax1, haddr1, hnid1⟩ := dropBack_spec hinv (by omega)
      obtain ⟨ih1, ih2, ih3, ih4, ih5, ih6⟩ :=
        shrinkLoop_spec fuel newSize d.dropBack hinv1 (by rw [hidx1]; omega)
      refine ⟨ih1, ?_, ?_, by rw [ih4, hmax1], by rw [ih5, haddr1], by rw [ih6, hnid1]⟩
      · rw [ih2, hvals1, hidx1, List.take_take]
        congr 1
        omega
      · rw [ih3, hidx1]
        omega

theorem shrinkToSize_spec {d : Darray T} (h : d.Inv) (newSize : Nat) :
    (d.index ≤ newSize → d.shrinkToSize newSize = d) ∧
    (newSize < d.index →
      (d.shrinkToSize newSize).Inv ∧
      (d.shrinkToSize newSize).values = d.values.take newSize ∧
      (d.shrinkToSize newSize).index = newSize ∧
      (d.shrinkToSize newSize).maxSize = newSize) := by
  constructor
  · intro hge
    unfold shrinkToSize
    rw [if_pos hge]
  · intro hlt
    unfold shrinkToSize
    rw [if_neg (by omega)]
    obtain ⟨h1, h2, h3, h4, h5, h6⟩ := shrinkLoop_spec d.index newSize d h (by omega)
    have h7 : (shrinkLoop d.index newSize d).index ≤ newSize := by
      rw [h3]
      omega
    refine ⟨resize_inv h1 h7, ?_, ?_, rfl⟩
    · show (shrinkLoop d.index newSize d).values = d.values.take newSize
      rw [h2]
      congr 1
      omega
    · show (shrinkLoop d.index newSize d).index = newSize
      rw [h3]
      omega

/-! ### `sort` -/

theorem sort_spec0 {d : Darray T} (h : d.Inv) (comp : T → T → Bool) :
    (d.sort comp).Inv ∧
    (d.sort comp).data = d.data.mergeSort (fun p q => !(comp q.2 p.2)) ∧
    (d.sort comp).index = d.index ∧
    (d.sort comp).maxSize = d.maxSize := by
  obtain ⟨hlen, hcap, hdata, haddr, hnd, hbound⟩ := h
  have hperm : List.Perm (d.data.mergeSort (fun p q => !(comp q.2 p.2))) d.data :=
    List.mergeSort_perm d.data _
  have hpre : PreInv { d with data := d.data.mergeSort (fun p q => !(comp q.2 p.2)) } := by
    refine ⟨hlen, hcap, ?_, ?_, ?_⟩
    · show (d.data.mergeSort _).length = d.index
      rw [List.length_mergeSort, hdata]
    · show ((d.data.mergeSort _).map Prod.fst).Nodup
      exact hnd.perm (hperm.map Prod.fst).symm
    · intro n hn
      have hn2 : n ∈ d.nodeIds := (hperm.map Prod.fst).mem_iff.mp hn
      exact hbound n hn2
  exact ⟨rebuild_inv hpre, rfl, rfl, rfl⟩

/-! ### copy and move -/

theorem enum_ids (l : List T) : l.enum.map Prod.fst = List.range l.length := by
  rw [List.enum_eq_enumFrom, List.enumFrom_map_fst, List.range_eq_range']

theorem enum_vals (l : List T) : l.enum.map Prod.snd = l := by
  rw [List.enum_eq_enumFrom, List.enumFrom_map_snd]

theorem copyCtor_spec {other : Darray T} (h : other.Inv) :
    (copyCtor other).Inv ∧
    (copyCtor other).values = other.values ∧
    (copyCtor other).index = other.index ∧
    (copyCtor other).maxSize = other.maxSize := by
  obtain ⟨hlen, hcap, hdata, haddr, hnd, hbound⟩ := h
  have hvlen : other.values.length = other.index := by
    rw [values_length, hdata]
  have hpre : PreInv (copyRecord other) := by
    refine ⟨by simp [copyRecord], hcap, ?_, ?_, ?_⟩
    · show other.values.enum.length = other.index
      rw [List.enum_length, hvlen]
    · show (other.values.enum.map Prod.fst).Nodup
      rw [enum_ids]
      exact List.nodup_range _
    · intro n hn
      rw [show (copyRecord other).nodeIds = other.values.enum.map Prod.fst from rfl,
        enum_ids] at hn
      exact List.mem_range.mp hn
  refine ⟨rebuild_inv hpre, ?_, rfl, rfl⟩
  show other.values.enum.map Prod.snd = other.values
  exact enum_vals other.values

theorem moveCtor_dst_inv {other : Darray T} (h : other.Inv) : (moveCtor other).1.Inv :=
  ⟨h.1, h.2.1, h.2.2.1, h.2.2.2.1, h.2.2.2.2.1, h.2.2.2.2.2⟩

theorem moveCtor_src_inv (other : Darray T) : (moveCtor other).2.Inv := by
  refine ⟨rfl, Nat.le_refl 0, rfl, ?_, List.nodup_nil, ?_⟩
  · intro i hi
    exact absurd (show i < 0 from hi) (by omega)
  · intro n hn
    exact absurd (show n ∈ ([] : List Nat) from hn) (by simp)

end Darray

namespace Darray

variable {T : Type}

/-! ### Bounds-check characterizations -/

theorem get_eq_none_iff {d : Darray T} (h : d.Inv) (pos : Nat) :
    d.get pos = none ↔ d.index ≤ pos := by
  constructor
  · intro hn
    by_contra hlt
    have hg := get_eq_values h pos
    rw [hn] at hg
    have h2 : pos < d.values.length := by
      rw [values_length, h.2.2.1]
      omega
    rw [List.getElem?_eq_getElem h2] at hg
    cases hg
  · intro hge
    unfold get
    rw [if_pos hge]

theorem set_eq_none_iff (d : Darray T) (pos : Nat) (val : T) :
    d.set pos val = none ↔ d.index ≤ pos := by
  unfold set
  by_cases hge : d.index ≤ pos
  · rw [if_pos hge]
    simp [hge]
  · rw [if_neg hge]
    simp [hge]

theorem removeAt_eq_none_iff (d : Darray T) (pos : Nat) :
    d.removeAt pos = none ↔ d.index ≤ pos := by
  unfold removeAt
  by_cases hge : d.index ≤ pos
  · rw [if_pos hge]
    simp [hge]
  · rw [if_neg hge]
    simp [hge]

theorem addAt_eq_none_iff (d : Darray T) (pos : Nat) (val : T) :
    d.addAt pos val = none ↔ d.index < pos := by
  unfold addAt
  by_cases hgt : d.index < pos
  · rw [if_pos hgt]
    simp [hgt]
  · rw [if_neg hgt]
    simp [hgt]

/-! ### Invariant preservation along any sequence of mutations -/

theorem applyMut_inv [DecidableEq T] {d : Darray T} (h : d.Inv) :
    ∀ {m : Mut T}, MutOK m → ∀ {d2 : Darray T}, applyMut d m = some d2 → d2.Inv := by
  intro m hm d2 happ
  cases m with
  | add v =>
    by_cases h0 : d.maxSize = 0
    · rw [show applyMut d (Mut.add v) = d.add v from rfl, (add_spec h v).1 h0] at happ
      cases happ
    · obtain ⟨d3, he, hinv3, _, _, _, _⟩ := (add_spec h v).2 (by omega)
      rw [show applyMut d (Mut.add v) = d.add v from rfl, he] at happ
      exact (Option.some.inj happ) ▸ hinv3
  | addAt p v =>
    have happ2 : (d.addAt p v).getD d = d2 := Option.some.inj happ
    by_cases hp : p ≤ d.index
    · obtain ⟨d3, he, hinv3, _⟩ := (addAt_spec h p v).2 hp
      rw [he] at happ2
      have h3 : d3 = d2 := happ2
      exact h3 ▸ hinv3
    · rw [(addAt_spec h p v).1 (by omega)] at happ2
      have h3 : d = d2 := happ2
      exact h3 ▸ h
  | removeVal v all =>
    have h3 : d.remove v all = d2 := Option.some.inj happ
    exact h3 ▸ (remove_spec h v all).1
  | removeAt p =>
    have happ2 : (d.removeAt p).getD d = d2 := Option.some.inj happ
    by_cases hp : p < d.index
    · rw [removeAt_eq_some hp] at happ2
      have h3 : d.eraseAtPos p = d2 := happ2
      exact h3 ▸ (eraseAtPos_spec h hp).1
    · rw [removeAt_eq_none (by omega)] at happ2
      have h3 : d = d2 := happ2
      exact h3 ▸ h
  | sortBy comp =>
    have h3 : d.sort comp = d2 := Option.some.inj happ
    exact h3 ▸ (sort_spec0 h comp).1
  | copyFrom src =>
    have h3 : d.copyAssign src = d2 := Option.some.inj happ
    exact h3 ▸ (copyCtor_spec hm).1
  | moveFrom src =>
    have h3 : (d.moveAssign src).1 = d2 := Option.some.inj happ
    exact h3 ▸ (moveCtor_dst_inv hm)
  | clear =>
    have h3 : d.clear = d2 := Option.some.inj happ
    exact h3 ▸ clear_inv h
  | shrink n =>
    have h3 : d.shrinkToSize n = d2 := Option.some.inj happ
    by_cases hn : d.index ≤ n
    · rw [(shrinkToSize_spec h n).1 hn] at h3
      exact h3 ▸ h
    · exact h3 ▸ ((shrinkToSize_spec h n).2 (by omega)).1

theorem applyMuts_inv [DecidableEq T] :
    ∀ (ms : List (Mut T)) (d : Darray T), d.Inv → (∀ m ∈ ms, MutOK m) →
      ∀ {d2 : Darray T}, applyMuts d ms = some d2 → d2.Inv
  | [], d, h, _, d2, happ => by
    have h3 : d = d2 := Option.some.inj happ
    exact h3 ▸ h
  | m :: ms, d, h, hok, d2, happ => by
    rw [show applyMuts d (m :: ms)
        = (match applyMut d m with
           | some d1 => applyMuts d1 ms
           | none => none) from rfl] at happ
    cases he : applyMut d m with
    | none =>
      rw [he] at happ
      cases happ
    | some d1 =>
      rw [he] at happ
      exact applyMuts_inv ms d1 (applyMut_inv h (hok m (List.mem_cons_self m ms)) he)
        (fun m2 hm2 => hok m2 (List.mem_cons_of_mem m hm2)) happ

end Darray

namespace Darray

variable {T : Type}

/-! ## The claims -/

/-- C1: Index/store consistency: starting from any well-formed container,
after any sequence of the documented mutations (append, positional
insert, positional and valued removal, sort, copy assignment, move
assignment, clear, shrink) that executes without undefined behavior, for
every `i` in `[0, size())` positional access `get i` (`operator[]`)
returns exactly the `(i+1)`-th element of the backing store's traversal
order (`values`).  A bounds-check exception inside the sequence leaves its
step's container unchanged and the sequence continues; `none` marks only
the out-of-bounds table write of `add` at capacity 0, which is undefined
behavior. -/
theorem index_store_consistency [DecidableEq T] (ms : List (Mut T)) (d0 : Darray T)
    (h0 : d0.Inv) (hok : ∀ m ∈ ms, MutOK m) (d : Darray T)
    (happ : applyMuts d0 ms = some d) :
    ∀ i, i < d.size → d.get i = d.values[i]? := by
  have hinv := applyMuts_inv ms d0 h0 hok happ
  intro i _
  exact get_eq_values hinv i

theorem index_store_consistency_witness :
    ((applyMuts (mkEmpty 2 : Darray Nat)
        [Mut.add 5, Mut.addAt 0 7, Mut.removeVal 9 true]).getD (mkEmpty 0)).get 0
      = ((applyMuts (mkEmpty 2 : Darray Nat)
          [Mut.add 5, Mut.addAt 0 7, Mut.removeVal 9 true]).getD (mkEmpty 0)).values[0]? :=
  index_store_consistency [Mut.add 5, Mut.addAt 0 7, Mut.removeVal 9 true]
    (mkEmpty 2) (by decide)
    (by
      intro m hm
      rcases List.mem_cons.mp hm with rfl | hm2
      · trivial
      · rcases List.mem_cons.mp hm2 with rfl | hm3
        · trivial
        · rcases List.mem_cons.mp hm3 with rfl | hm4
          · trivial
          · cases hm4)
    _ (by rfl) 0 (by decide)

/-- C2 counterexample: the append-growth doubling has no floor.  Appending
`7` to a moved-from container (capacity 0): the "doubled" capacity is
`0 * 2 = 0` — not a fixed positive minimum — and the append's recording
write `addresses[0]` is out of bounds (modelled `none`): no container
state in which the element is stored at position 0 results, unlike an
append to a freshly constructed empty container. -/
theorem add_movedFrom_counterexample :
    Darray.add ((Darray.moveCtor (Darray.ofList [(5 : Nat)])).2) 7 = none ∧
    ((Darray.moveCtor (Darray.ofList [(5 : Nat)])).2.resizeAddressTable
      ((Darray.moveCtor (Darray.ofList [(5 : Nat)])).2.maxSize * 2)).maxSize = 0 ∧
    (∃ dfresh, Darray.add (mkEmpty 25 : Darray Nat) 7 = some dfresh) :=
  ⟨rfl, rfl, ⟨_, rfl⟩⟩

/-- C2 amended: when `add` is called with `logicalSize == capacity` the
capacity is doubled with no floor.  With positive capacity the append
succeeds and the element is stored and retrievable at the old size; with
capacity 0 (a moved-from container) the doubled capacity is still 0 and
the recording write is out of bounds (`none`), so the append does not
behave as an append to a freshly constructed empty container. -/
theorem add_growth_spec {d : Darray T} (h : d.Inv) (val : T) :
    (0 < d.maxSize → ∃ d2, d.add val = some d2 ∧ d2.Inv ∧
      d2.maxSize = (if d.maxSize ≤ d.index then d.maxSize * 2 else d.maxSize) ∧
      d2.get d.size = some val ∧ d2.size = d.size + 1) ∧
    (d.maxSize = 0 → d.add val = none) := by
  refine ⟨?_, (add_spec h val).1⟩
  intro hpos
  obtain ⟨d2, he, hinv2, hvals, hidx, hmax, _⟩ := (add_spec h val).2 hpos
  refine ⟨d2, he, hinv2, hmax, ?_, hidx⟩
  rw [get_eq_values hinv2 d.size, hvals]
  have hlen : d.values.length = d.index := by
    rw [values_length, h.2.2.1]
  rw [List.getElem?_append_right (by show d.values.length ≤ d.index; omega)]
  rw [show d.size - d.values.length = 0 from by show d.index - d.values.length = 0; omega]
  rfl

theorem add_growth_spec_witness :
    (0 < (Darray.ofList [(1 : Nat), 2]).maxSize → ∃ d2, (Darray.ofList [(1 : Nat), 2]).add 9 = some d2 ∧ d2.Inv ∧
      d2.maxSize = (if (Darray.ofList [(1 : Nat), 2]).maxSize ≤ (Darray.ofList [(1 : Nat), 2]).index
        then (Darray.ofList [(1 : Nat), 2]).maxSize * 2 else (Darray.ofList [(1 : Nat), 2]).maxSize) ∧
      d2.get (Darray.ofList [(1 : Nat), 2]).size = some 9 ∧
      d2.size = (Darray.ofList [(1 : Nat), 2]).size + 1) ∧
    ((Darray.ofList [(1 : Nat), 2]).maxSize = 0 → (Darray.ofList [(1 : Nat), 2]).add 9 = none) :=
  add_growth_spec (by decide) 9

/-- C3: `get`/`set` (`operator[]`) and `removeAt` signal the out-of-bounds
error exactly when the position is `≥ size()`, and `addAt` exactly when it
is `> size()`; the position is never silently clamped.  The bounds check
precedes every mutation, so an erroring call produces no new state — the
container is unchanged.  In particular `get (size())` errors (on any
container, hence on any non-empty one). -/
theorem bounds_check_spec {d : Darray T} (h : d.Inv) (pos : Nat) (val : T) :
    (d.get pos = none ↔ d.size ≤ pos) ∧
    (d.set pos val = none ↔ d.size ≤ pos) ∧
    (d.removeAt pos = none ↔ d.size ≤ pos) ∧
    (d.addAt pos val = none ↔ d.size < pos) ∧
    d.get d.size = none :=
  ⟨get_eq_none_iff h pos, set_eq_none_iff d pos val, removeAt_eq_none_iff d pos,
    addAt_eq_none_iff d pos val, (get_eq_none_iff h d.size).mpr (Nat.le_refl _)⟩

theorem bounds_check_spec_witness :
    ((Darray.ofList [(3 : Nat), 4]).get 5 = none ↔ (Darray.ofList [(3 : Nat), 4]).size ≤ 5) ∧
    ((Darray.ofList [(3 : Nat), 4]).set 5 9 = none ↔ (Darray.ofList [(3 : Nat), 4]).size ≤ 5) ∧
    ((Darray.ofList [(3 : Nat), 4]).removeAt 5 = none ↔ (Darray.ofList [(3 : Nat), 4]).size ≤ 5) ∧
    ((Darray.ofList [(3 : Nat), 4]).addAt 5 9 = none ↔ (Darray.ofList [(3 : Nat), 4]).size < 5) ∧
    (Darray.ofList [(3 : Nat), 4]).get (Darray.ofList [(3 : Nat), 4]).size = none :=
  bounds_check_spec (by decide) 5 9

/-- C4 counterexample: copy-assignment is not strongly exception safe.  A
target that held one element, copy-assigned from a two-element source,
is observed with size 2 — not its prior size 1 — when the allocation of
the new address table fails (the failure state `copyAssignAllocFail`:
`data`, `index`, `maxSize` already assigned, old table already freed). -/
theorem copyAssign_not_strong_counterexample :
    (Darray.copyAssignAllocFail (Darray.ofList [(1 : Nat)]) (Darray.ofList [2, 3])).size
      ≠ (Darray.ofList [(1 : Nat)]).size := by
  decide

/-- C4 amended: copy-assignment gives only the basic guarantee: it assigns
`data = other.data; index; maxSize;` and frees the old address table
before allocating the new one, so if that allocation fails the target is
observed with the source's size and elements and a released table — the
prior state is not preserved.  On success, the target is a correct deep
copy (well-formed, same values and size as the source). -/
theorem copyAssign_basic_guarantee {t other : Darray T} (h : other.Inv) :
    ((copyAssignAllocFail t other).size = other.size ∧
     (copyAssignAllocFail t other).values = other.values ∧
     (copyAssignAllocFail t other).addresses = []) ∧
    ((copyAssign t other).Inv ∧
     (copyAssign t other).values = other.values ∧
     (copyAssign t other).size = other.size) := by
  obtain ⟨h1, h2, h3, _⟩ := copyCtor_spec h
  exact ⟨⟨rfl, enum_vals other.values, rfl⟩, h1, h2, h3⟩

theorem copyAssign_basic_guarantee_witness :
    ((Darray.copyAssignAllocFail (Darray.ofList [(1 : Nat)]) (Darray.ofList [2, 3])).size
        = (Darray.ofList [(2 : Nat), 3]).size ∧
     (Darray.copyAssignAllocFail (Darray.ofList [(1 : Nat)]) (Darray.ofList [2, 3])).values
        = (Darray.ofList [(2 : Nat), 3]).values ∧
     (Darray.copyAssignAllocFail (Darray.ofList [(1 : Nat)]) (Darray.ofList [2, 3])).addresses
        = []) ∧
    ((Darray.copyAssign (Darray.ofList [(1 : Nat)]) (Darray.ofList [2, 3])).Inv ∧
     (Darray.copyAssign (Darray.ofList [(1 : Nat)]) (Darray.ofList [2, 3])).values
        = (Darray.ofList [(2 : Nat), 3]).values ∧
     (Darray.copyAssign (Darray.ofList [(1 : Nat)]) (Darray.ofList [2, 3])).size
        = (Darray.ofList [(2 : Nat), 3]).size) :=
  copyAssign_basic_guarantee (by decide)

/-- C5: after move construction or move assignment, the source has
`size() = 0` and capacity 0, and the destination holds exactly the
source's prior elements in the prior order (the store is transferred
node-for-node, so iterators stay valid), with positional access agreeing
with that order. -/
theorem move_spec {t d : Darray T} (h : d.Inv) :
    ((moveCtor d).2.size = 0 ∧ (moveCtor d).2.maxSize = 0 ∧
     (moveCtor d).1.values = d.values ∧ (moveCtor d).1.size = d.size ∧
     (∀ i, (moveCtor d).1.get i = d.values[i]?)) ∧
    ((moveAssign t d).2.size = 0 ∧ (moveAssign t d).2.maxSize = 0 ∧
     (moveAssign t d).1.values = d.values ∧ (moveAssign t d).1.size = d.size ∧
     (∀ i, (moveAssign t d).1.get i = d.values[i]?)) := by
  have hg : ∀ i, (moveCtor d).1.get i = d.values[i]? := fun i =>
    get_eq_values (moveCtor_dst_inv h) i
  exact ⟨⟨rfl, rfl, rfl, rfl, hg⟩, ⟨rfl, rfl, rfl, rfl, hg⟩⟩

theorem move_spec_witness :
    (((moveCtor (Darray.ofList [(4 : Nat), 5])).2.size = 0 ∧
      (moveCtor (Darray.ofList [(4 : Nat), 5])).2.maxSize = 0 ∧
      (moveCtor (Darray.ofList [(4 : Nat), 5])).1.values = (Darray.ofList [(4 : Nat), 5]).values ∧
      (moveCtor (Darray.ofList [(4 : Nat), 5])).1.size = (Darray.ofList [(4 : Nat), 5]).size ∧
      (∀ i, (moveCtor (Darray.ofList [(4 : Nat), 5])).1.get i
        = (Darray.ofList [(4 : Nat), 5]).values[i]?)) ∧
     ((moveAssign (Darray.ofList [(9 : Nat)]) (Darray.ofList [(4 : Nat), 5])).2.size = 0 ∧
      (moveAssign (Darray.ofList [(9 : Nat)]) (Darray.ofList [(4 : Nat), 5])).2.maxSize = 0 ∧
      (moveAssign (Darray.ofList [(9 : Nat)]) (Darray.ofList [(4 : Nat), 5])).1.values
        = (Darray.ofList [(4 : Nat), 5]).values ∧
      (moveAssign (Darray.ofList [(9 : Nat)]) (Darray.ofList [(4 : Nat), 5])).1.size
        = (Darray.ofList [(4 : Nat), 5]).size ∧
      (∀ i, (moveAssign (Darray.ofList [(9 : Nat)]) (Darray.ofList [(4 : Nat), 5])).1.get i
        = (Darray.ofList [(4 : Nat), 5]).values[i]?))) :=
  move_spec (by decide)

end Darray

namespace Darray

variable {T : Type}

/-- C6: `remove` scans positions `0..size)` in order.  With `all = false`
it removes exactly the first element equal to `val` and returns (the
effect on the value sequence is `eraseP`); with `all = true` it removes
every equal element, re-examining the slot into which the next element
shifted so none is skipped (the effect is `filter`-out).  On
`["a","b","c","b"]`, removing `"b"` yields `["a","c","b"]` with
`all = false` and `["a","c"]` with `all = true`. -/
theorem remove_scan_spec [DecidableEq T] {d : Darray T} (h : d.Inv) (val : T) :
    (d.remove val false).values = d.values.eraseP (fun x => decide (x = val)) ∧
    (d.remove val true).values = d.values.filter (fun x => decide (¬ x = val)) ∧
    ((Darray.ofList ["a", "b", "c", "b"]).remove "b" false).values = ["a", "c", "b"] ∧
    ((Darray.ofList ["a", "b", "c", "b"]).remove "b" true).values = ["a", "c"] := by
  refine ⟨?_, ?_, by decide, by decide⟩
  · rw [(remove_spec h val false).2.1, removeVals_false_eq]
  · rw [(remove_spec h val true).2.1, removeVals_true_eq]

theorem remove_scan_spec_witness :
    ((Darray.ofList ["a", "b", "c", "b"]).remove "b" false).values
        = (Darray.ofList ["a", "b", "c", "b"]).values.eraseP (fun x => decide (x = "b")) ∧
    ((Darray.ofList ["a", "b", "c", "b"]).remove "b" true).values
        = (Darray.ofList ["a", "b", "c", "b"]).values.filter (fun x => decide (¬ x = "b")) ∧
    ((Darray.ofList ["a", "b", "c", "b"]).remove "b" false).values = ["a", "c", "b"] ∧
    ((Darray.ofList ["a", "b", "c", "b"]).remove "b" true).values = ["a", "c"] :=
  remove_scan_spec (by decide) "b"

/-- C7: `sort comp` (the overload without arguments uses the element
type's `operator<`) reorders the store by a stable merge sort and rebuilds
the position index.  Under the strict-weak-order conditions C++ imposes on
a comparator (asymmetry and negative transitivity), the result is sorted
in the comparator's total order (`comp b a = false` pairwise, i.e. no
later element is strictly below an earlier one), is a permutation of the
input, keeps the relative order of elements equivalent under `comp`
(stability, stated on store nodes), keeps the size, and positional access
`get i` reflects the sorted order for all `i`. -/
theorem sort_claim {d : Darray T} (h : d.Inv) (comp : T → T → Bool)
    (hasym : ∀ a b, comp a b = true → comp b a = false)
    (hnegtrans : ∀ a b c, comp b a = false → comp c b = false → comp c a = false) :
    (d.sort comp).size = d.size ∧
    List.Perm (d.sort comp).values d.values ∧
    (d.sort comp).values.Pairwise (fun a b => comp b a = false) ∧
    (∀ p q : Nat × T, List.Sublist [p, q] d.data → comp p.2 q.2 = false →
      comp q.2 p.2 = false → List.Sublist [p, q] (d.sort comp).data) ∧
    (∀ i, (d.sort comp).get i = (d.sort comp).values[i]?) := by
  obtain ⟨hinv, hdataeq, hidx, hmax⟩ := sort_spec0 h comp
  have htrans : ∀ a b c : Nat × T, (!(comp b.2 a.2)) = true → (!(comp c.2 b.2)) = true →
      (!(comp c.2 a.2)) = true := by
    intro a b c h1 h2
    rw [Bool.not_eq_true'] at h1 h2 ⊢
    exact hnegtrans _ _ _ h1 h2
  have htotal : ∀ a b : Nat × T, ((!(comp b.2 a.2)) || (!(comp a.2 b.2))) = true := by
    intro a b
    cases hc : comp b.2 a.2 with
    | false => simp
    | true => simp [hasym _ _ hc]
  refine ⟨?_, ?_, ?_, ?_, fun i => get_eq_values hinv i⟩
  · show (d.sort comp).index = d.index
    exact hidx
  · show List.Perm ((d.sort comp).data.map Prod.snd) (d.data.map Prod.snd)
    rw [hdataeq]
    exact (List.mergeSort_perm d.data _).map Prod.snd
  · show ((d.sort comp).data.map Prod.snd).Pairwise _
    rw [hdataeq]
    rw [List.pairwise_map]
    have hs := List.sorted_mergeSort htrans htotal d.data
    exact hs.imp (fun hpq => by rwa [Bool.not_eq_true'] at hpq)
  · intro p q hsub h1 h2
    rw [hdataeq]
    exact List.pair_sublist_mergeSort htrans htotal (by simp [h2]) hsub

theorem sort_claim_witness :
    ((Darray.ofList [(3 : Nat), 1, 2]).sort (fun a b => decide (a < b))).size
        = (Darray.ofList [(3 : Nat), 1, 2]).size ∧
    List.Perm ((Darray.ofList [(3 : Nat), 1, 2]).sort (fun a b => decide (a < b))).values
        (Darray.ofList [(3 : Nat), 1, 2]).values ∧
    ((Darray.ofList [(3 : Nat), 1, 2]).sort
        (fun a b => decide (a < b))).values.Pairwise (fun a b => decide (b < a) = false) ∧
    (∀ p q : Nat × Nat, List.Sublist [p, q] (Darray.ofList [(3 : Nat), 1, 2]).data →
      decide (p.2 < q.2) = false → decide (q.2 < p.2) = false →
      List.Sublist [p, q] ((Darray.ofList [(3 : Nat), 1, 2]).sort
        (fun a b => decide (a < b))).data) ∧
    (∀ i, ((Darray.ofList [(3 : Nat), 1, 2]).sort (fun a b => decide (a < b))).get i
        = ((Darray.ofList [(3 : Nat), 1, 2]).sort (fun a b => decide (a < b))).values[i]?) :=
  sort_claim (by decide) (fun a b => decide (a < b))
    (fun a b hab => by
      simp only [decide_eq_true_eq] at hab
      simp only [decide_eq_false_iff_not]
      omega)
    (fun a b c h1 h2 => by
      simp only [decide_eq_false_iff_not] at h1 h2 ⊢
      omega)

/-- C8: `shrinkToSize newSize` with `newSize ≥ size()` is a no-op: the
container is returned structurally unchanged (size, capacity and elements
intact).  With `newSize < size()` it removes elements from the back until
`size() = newSize`, keeping exactly the first `newSize` elements in
order, and sets the capacity to exactly `newSize`. -/
theorem shrinkToSize_claim {d : Darray T} (h : d.Inv) (newSize : Nat) :
    (d.size ≤ newSize → d.shrinkToSize newSize = d) ∧
    (newSize < d.size →
      (d.shrinkToSize newSize).values = d.values.take newSize ∧
      (d.shrinkToSize newSize).size = newSize ∧
      (d.shrinkToSize newSize).maxSize = newSize) := by
  refine ⟨(shrinkToSize_spec h newSize).1, fun hlt => ?_⟩
  obtain ⟨_, h2, h3, h4⟩ := (shrinkToSize_spec h newSize).2 hlt
  exact ⟨h2, h3, h4⟩

theorem shrinkToSize_claim_witness :
    ((Darray.ofList [(1 : Nat), 2, 3, 4]).size ≤ 7 →
      (Darray.ofList [(1 : Nat), 2, 3, 4]).shrinkToSize 7 = Darray.ofList [(1 : Nat), 2, 3, 4]) ∧
    (7 < (Darray.ofList [(1 : Nat), 2, 3, 4]).size →
      ((Darray.ofList [(1 : Nat), 2, 3, 4]).shrinkToSize 7).values
          = (Darray.ofList [(1 : Nat), 2, 3, 4]).values.take 7 ∧
      ((Darray.ofList [(1 : Nat), 2, 3, 4]).shrinkToSize 7).size = 7 ∧
      ((Darray.ofList [(1 : Nat), 2, 3, 4]).shrinkToSize 7).maxSize = 7) :=
  shrinkToSize_claim (by decide) 7

/-- C9: `clear` drops all elements and resets the size to 0 while leaving
the capacity and the address-table allocation untouched for reuse;
afterwards `empty()` is true, and when the retained capacity is positive a
subsequent append succeeds without growing the table (capacity unchanged),
storing the element at position 0. -/
theorem clear_claim {d : Darray T} (h : d.Inv) (val : T) :
    d.clear.size = 0 ∧
    d.clear.maxSize = d.maxSize ∧
    d.clear.addresses = d.addresses ∧
    d.clear.empty = true ∧
    (0 < d.maxSize → ∃ d2, d.clear.add val = some d2 ∧ d2.maxSize = d.maxSize ∧
      d2.size = 1 ∧ d2.get 0 = some val) := by
  refine ⟨rfl, rfl, rfl, rfl, ?_⟩
  intro hpos
  obtain ⟨d2, he, hinv2, hvals, hidx, hmax, _⟩ :=
    (add_spec (clear_inv h) val).2 (show 0 < d.clear.maxSize from hpos)
  refine ⟨d2, he, ?_, ?_, ?_⟩
  · rw [hmax, if_neg (show ¬ d.clear.maxSize ≤ d.clear.index from by
      show ¬ (d.maxSize ≤ 0)
      omega)]
    rfl
  · show d2.index = 1
    rw [hidx]
    rfl
  · rw [get_eq_values hinv2 0, hvals]
    rfl

theorem clear_claim_witness :
    (Darray.ofList [(1 : Nat), 2]).clear.size = 0 ∧
    (Darray.ofList [(1 : Nat), 2]).clear.maxSize = (Darray.ofList [(1 : Nat), 2]).maxSize ∧
    (Darray.ofList [(1 : Nat), 2]).clear.addresses = (Darray.ofList [(1 : Nat), 2]).addresses ∧
    (Darray.ofList [(1 : Nat), 2]).clear.empty = true ∧
    (0 < (Darray.ofList [(1 : Nat), 2]).maxSize →
      ∃ d2, (Darray.ofList [(1 : Nat), 2]).clear.add 7 = some d2 ∧
        d2.maxSize = (Darray.ofList [(1 : Nat), 2]).maxSize ∧
        d2.size = 1 ∧ d2.get 0 = some 7) :=
  clear_claim (by decide) 7

/-- C10: `remove` never signals an error: it has no failure outcome in the
embedding, matching the C++ code's lack of any throw path.  Called on an
empty container, or with a value equal to no element, it returns the
container structurally — hence observably (size, capacity, elements and
their order) — unchanged. -/
theorem remove_no_error_spec [DecidableEq T] {d : Darray T} (h : d.Inv) (val : T) (all : Bool) :
    (d.size = 0 → d.remove val all = d) ∧
    (val ∉ d.values → d.remove val all = d) := by
  constructor
  · intro h0
    apply remove_guard
    have h1 : d.index = 0 := h0
    simp [h1]
  · exact remove_noop h val all

theorem remove_no_error_spec_witness :
    ((Darray.ofList [(1 : Nat), 2, 3]).size = 0 →
      (Darray.ofList [(1 : Nat), 2, 3]).remove 9 false = Darray.ofList [(1 : Nat), 2, 3]) ∧
    ((9 : Nat) ∉ (Darray.ofList [(1 : Nat), 2, 3]).values →
      (Darray.ofList [(1 : Nat), 2, 3]).remove 9 false = Darray.ofList [(1 : Nat), 2, 3]) :=
  remove_no_error_spec (by decide) 9 false

end Darray
